import Mathlib

/-!
Verification development for the ingredient-normalization and recipe-ranking core
of the Snap2Recipe backend (`api/utils/text_norm.py` and `api/recipes/indexer.py`).

The Python code is shallowly embedded: strings are Lean `String` (a wrapper around
`List Char`), Python text builtins (`str.lower`, `str.strip`, `str.split`,
`' '.join`, `re.sub` for the three fixed patterns used by the code) are modelled as
executable char-list functions restricted to the ASCII fragment that the corpus and
queries use, floats are modelled as rationals, and the two external dependencies of
the core (nltk's WordNetLemmatizer and the `rank_bm25` BM25Okapi scorer) are
modelled from the spec, as marked in their doc comments.
-/

/-- Python `str.lower()` on the ASCII fragment: lowercase every character. -/
def pyLower (s : String) : String := ⟨s.data.map Char.toLower⟩

/-- Characters stripped by Python `str.strip()`: whitespace. -/
def pyStrip (s : String) : String :=
  ⟨((s.data.dropWhile Char.isWhitespace).reverse.dropWhile Char.isWhitespace).reverse⟩

/-- The character class kept by `re.sub(r'[^\w\s-]', ' ', text)` in
`TextNormalizer.normalize` (ASCII fragment of `\w`, whitespace, and hyphen). -/
def isKeptChar (c : Char) : Bool :=
  c.isAlphanum || c == '_' || c.isWhitespace || c == '-'

/-- `re.sub(r'[^\w\s-]', ' ', text)`: replace every non-kept character by a space. -/
def pyStripPunct (s : String) : String :=
  ⟨s.data.map (fun c => if isKeptChar c then c else ' ')⟩

/-- Helper for Python `str.split()` (no separator): accumulate the current word in
reverse, emit a word at each whitespace run boundary. -/
def wordsAux : List Char → List Char → List (List Char)
  | [], acc => if acc.isEmpty then [] else [acc.reverse]
  | c :: cs, acc =>
    if c.isWhitespace then
      if acc.isEmpty then wordsAux cs [] else acc.reverse :: wordsAux cs []
    else wordsAux cs (c :: acc)

/-- Python `str.split()` with no argument: split on whitespace runs, discarding
empty pieces. -/
def pyWords (s : String) : List String := (wordsAux s.data []).map String.mk

/-- Helper for Python `' '.join(...)`: concatenate character lists with a single
space between consecutive elements. -/
def joinChars : List (List Char) → List Char
  | [] => []
  | [w] => w
  | w :: w2 :: ws => w ++ ' ' :: joinChars (w2 :: ws)

/-- Python `' '.join(items)`. -/
def pyJoin (items : List String) : String := ⟨joinChars (items.map String.data)⟩

/-- `' '.join(text.split())` as used by `TextNormalizer.normalize` to collapse
whitespace runs. -/
def collapseWS (s : String) : String := pyJoin (pyWords s)

/-- Helper for Python `str.split(',')`: split at every comma, keeping empty pieces
(so `"".split(',') == [""]`). -/
def splitCommaAux : List Char → List Char → List (List Char)
  | [], acc => [acc.reverse]
  | c :: cs, acc =>
    if c == ',' then acc.reverse :: splitCommaAux cs [] else splitCommaAux cs (c :: acc)

/-- Python `str.split(',')`. -/
def pySplitComma (s : String) : List String := (splitCommaAux s.data []).map String.mk

/-- Python `int(s)` on the decimal strings occurring in the corpus: optional
surrounding whitespace, an optional sign, then one or more ASCII digits; `none`
models the `ValueError` raised on anything else. -/
def pyParseInt (s : String) : Option Int :=
  let t := (pyStrip s).data
  let (sign, digits) :=
    match t with
    | '-' :: rest => ((-1 : Int), rest)
    | '+' :: rest => ((1 : Int), rest)
    | rest => ((1 : Int), rest)
  if digits.isEmpty || !digits.all Char.isDigit then none
  else some (sign * (digits.foldl (fun n c => n * 10 + (c.toNat - '0'.toNat)) 0 : Nat))

/-- Maximal leading run of ASCII digits (greedy `\d+`), returning it with the rest. -/
def takeDigits (l : List Char) : List Char × List Char :=
  (l.takeWhile Char.isDigit, l.dropWhile Char.isDigit)

/-- Maximal leading run of whitespace (greedy `\s*`), returning the rest. -/
def dropSpaces (l : List Char) : List Char := l.dropWhile Char.isWhitespace

/-- The unit alternation of the quantity pattern in
`TextNormalizer.tokenize_ingredients`, in the source's order (Python `re` picks the
first alternative that matches). -/
def unitAlternatives : List (List Char) :=
  [['c','u','p'], ['t','b','s','p'], ['t','s','p'], ['o','z'], ['l','b'],
   ['g'], ['k','g'], ['m','l'], ['l']]

/-- Match the unit alternation followed by the optional `s?` at the head of `l`,
returning the rest after the match. -/
def matchUnit (l : List Char) : Option (List Char) :=
  match unitAlternatives.find? (fun u => u.isPrefixOf l) with
  | some u =>
    match l.drop u.length with
    | 's' :: rest => some rest
    | rest => some rest
  | none => none

/-- Match `\d+(\.\d+)?\s*(cup|tbsp|tsp|oz|lb|g|kg|ml|l)s?` at the head of `l`,
returning the rest after the match.  All quantifiers are greedy; since no
alternative begins with a digit, a dot, or whitespace, backtracking into a shorter
`\d+`, `(\.\d+)?`, or `\s*` can never turn a failure into a success, so the greedy
scan is exactly Python's semantics for this pattern. -/
def matchQuantUnit (l : List Char) : Option (List Char) :=
  let (d1, r1) := takeDigits l
  if d1.isEmpty then none
  else
    let r2 :=
      match r1 with
      | '.' :: rest =>
        let (d2, r3) := takeDigits rest
        if d2.isEmpty then r1 else r3
      | _ => r1
    matchUnit (dropSpaces r2)

/-- Match `\d+/\d+` at the head of `l`, returning the rest after the match. -/
def matchFraction (l : List Char) : Option (List Char) :=
  let (d1, r1) := takeDigits l
  if d1.isEmpty then none
  else
    match r1 with
    | '/' :: rest =>
      let (d2, r2) := takeDigits rest
      if d2.isEmpty then none else some r2
    | _ => none

/-- `re.sub(pattern, '', item)` driver: scan left to right, deleting each
non-overlapping match and resuming after it.  `fuel` bounds the recursion; every
match of the two patterns above consumes at least one character, so `fuel =
length` is always sufficient. -/
def subScan (m : List Char → Option (List Char)) : Nat → List Char → List Char
  | 0, _ => []
  | _, [] => []
  | fuel + 1, c :: cs =>
    match m (c :: cs) with
    | some rest => subScan m fuel rest
    | none => c :: subScan m fuel cs

/-- `re.sub(r'\d+(\.\d+)?\s*(cup|tbsp|tsp|oz|lb|g|kg|ml|l)s?', '', item)`. -/
def pySubQuant (s : String) : String := ⟨subScan matchQuantUnit s.data.length s.data⟩

/-- `re.sub(r'\d+/\d+', '', item)`. -/
def pySubFraction (s : String) : String := ⟨subScan matchFraction s.data.length s.data⟩

/-- `re.sub(r'\d+', '', item)`: deleting every maximal digit run deletes exactly
the digit characters. -/
def pyRemoveDigits (s : String) : String := ⟨s.data.filter (fun c => !c.isDigit)⟩

/-- The plural-to-singular table hard-coded in `TextNormalizer.__init__`. -/
def plural_map : List (String × String) :=
  [("tomatoes", "tomato"), ("potatoes", "potato"), ("onions", "onion"),
   ("peppers", "pepper"), ("mushrooms", "mushroom"), ("beans", "bean"),
   ("peas", "pea"), ("carrots", "carrot"), ("eggs", "egg"), ("noodles", "noodle")]

/-- The default stopword set hard-coded in `TextNormalizer.__init__`. -/
def defaultStopwords : List String :=
  ["water", "salt", "pepper", "oil", "optional", "to", "taste", "fresh", "dried", "ground"]

/-- The state of a `TextNormalizer`: the synonym table loaded from JSON (a dict,
keys unique, modelled as an association list looked up by key), the stopword set,
and the lemmatizer.  The lemmatizer field models nltk's `WordNetLemmatizer
().lemmatize`, an external library dependency of the repository that is not part
of its source; per the spec it "reduce[s] each word to its dictionary base form",
and it is kept abstract as a word-to-word function here. -/
structure TextNormalizer where
  synonyms : List (String × String)
  stopwords : List String
  lemmatize : String → String

/-- Whole-string dictionary substitution: `if text in d: text = d[text]`. -/
def applyMap (d : List (String × String)) (t : String) : String :=
  match d.lookup t with
  | some v => v
  | none => t

/-- `TextNormalizer.normalize`: lowercase and strip, replace non-word
non-hyphen characters by spaces, collapse whitespace, whole-string synonym then
plural substitution, per-word lemmatization, optional stopword removal, rejoin
with single spaces. -/
def TextNormalizer.normalize (nm : TextNormalizer) (text : String)
    (remove_stopwords : Bool) : String :=
  let t := collapseWS (pyStripPunct (pyStrip (pyLower text)))
  let t := applyMap nm.synonyms t
  let t := applyMap plural_map t
  let words := (pyWords t).map nm.lemmatize
  let words := if remove_stopwords then
      words.filter (fun w => !nm.stopwords.contains w)
    else words
  pyJoin words

/-- `TextNormalizer.normalize_list`: normalize each item independently. -/
def TextNormalizer.normalize_list (nm : TextNormalizer) (items : List String)
    (remove_stopwords : Bool) : List String :=
  items.map (fun item => nm.normalize item remove_stopwords)

/-- The quantity/fraction/number stripping applied to each comma-separated
segment in `TextNormalizer.tokenize_ingredients`. -/
def stripQuantities (s : String) : String :=
  pyRemoveDigits (pySubFraction (pySubQuant s))

/-- `TextNormalizer.tokenize_ingredients`: split on commas, strip each segment,
remove quantity/unit, fraction and bare-number patterns, normalize with stopword
removal, and keep the non-empty normalized strings.  Note that the source appends
each segment's entire normalized string as one element; it does not split it on
whitespace. -/
def TextNormalizer.tokenize_ingredients (nm : TextNormalizer)
    (ingredients_str : String) : List String :=
  (((pySplitComma ingredients_str).map pyStrip).map
      (fun item => nm.normalize (stripQuantities item) true)).filter (· ≠ "")

/-- `TextNormalizer.extract_key_terms`: normalize with stopword removal, split on
whitespace, drop words of length at most 2. -/
def TextNormalizer.extract_key_terms (nm : TextNormalizer) (text : String) :
    List String :=
  (pyWords (nm.normalize text true)).filter (fun w => w.length > 2)

/-- The `Recipe` pydantic model of `api/schemas.py`: `score` is optional and
absent (`None`) on stored entries; floats are modelled as rationals. -/
structure Recipe where
  id : Int
  title : String
  ingredients : List String
  instructions : String
  cuisine : String
  tags : List String
  time_minutes : Option Int
  score : Option ℚ
deriving DecidableEq, Repr

instance : Inhabited Recipe := ⟨⟨0, "", [], "", "", [], none, none⟩⟩

/-- One row produced by `csv.DictReader` in `RecipeIndexer._load_recipes`.
`csv.DictReader` gives every row the full set of header keys; a row shorter
than the header has its missing fields filled with the `restval` default
`None`.  A `none` field therefore models a `None` *value* in the row dict (the
short-row case), not an absent key.  (A column missing from the header raises a
caught `KeyError` on every row of the file — a corpus-wide mode outside this
per-row model.) -/
structure RawRow where
  id : Option String
  title : Option String
  ingredients : Option String
  instructions : Option String
  cuisine : Option String
  tags : Option String
  time_minutes : Option String
deriving DecidableEq, Repr

/-- Outcome of processing one row inside the loader's `try`: the row parses to
a `Recipe`; or it raises an exception that `except (KeyError, ValueError)`
catches — a logged skip; or it raises one the handler does not catch
(`AttributeError` from `None.split(',')`, `TypeError` from `int(None)`),
which aborts the whole build. -/
inductive RowOutcome where
  | ok (r : Recipe)
  | skip
  | fatal
deriving DecidableEq, Repr

/-- The per-row body of `RecipeIndexer._load_recipes`, in the source's
evaluation order: `row['ingredients'].split(',')` and then
`row['tags'].split(',')` raise an uncaught `AttributeError` when the field is
`None`; the guarded `time_minutes` block cannot fail (falsy values are skipped
and its `ValueError` is swallowed by the inner `try`); `int(row['id'])` raises
an uncaught `TypeError` when `id` is `None` and a caught `ValueError` when it
is a non-numeric string; finally pydantic validation of `Recipe` raises
`ValidationError` — a `ValueError` subclass, hence a caught skip — when
`title`, `instructions` or `cuisine` is `None` where a string is required. -/
def parseRow (row : RawRow) : RowOutcome :=
  match row.ingredients with
  | none => .fatal
  | some ings =>
    match row.tags with
    | none => .fatal
    | some tgs =>
      match row.id with
      | none => .fatal
      | some idS =>
        match pyParseInt idS with
        | none => .skip
        | some n =>
          match row.title, row.instructions, row.cuisine with
          | some ttl, some instrs, some cuis =>
            .ok { id := n
                  title := ttl
                  ingredients := (pySplitComma ings).map pyStrip
                  instructions := instrs
                  cuisine := cuis
                  tags := (pySplitComma tgs).map pyStrip
                  time_minutes := row.time_minutes.bind
                    (fun ts => if ts = "" then none else pyParseInt ts)
                  score := none }
          | _, _, _ => .skip

/-- The recipe a row contributes when it parses successfully. -/
def rowRecipe (row : RawRow) : Option Recipe :=
  match parseRow row with
  | .ok r => some r
  | _ => none

/-- `RecipeIndexer._load_recipes` over an already-read row sequence: recipes
accumulate in order and each caught malformed row logs exactly one warning, so
the second component is the observable count of logged skips.  `none` models
the build aborting with an uncaught exception on a fatal row: the exception
propagates out of `__init__` and no indexer is constructed. -/
def loadRecipes : List RawRow → Option (List Recipe × Nat)
  | [] => some ([], 0)
  | row :: rest =>
    match parseRow row with
    | .fatal => none
    | .ok r => (loadRecipes rest).map (fun p => (r :: p.1, p.2))
    | .skip => (loadRecipes rest).map (fun p => (p.1, p.2 + 1))

/-- The tokens contributed by one recipe to the tokenized corpus in
`RecipeIndexer._build_index`: `tokenize_ingredients(' '.join(recipe.ingredients))`
followed by `extract_key_terms(recipe.title)`. -/
def recipeTokens (nm : TextNormalizer) (r : Recipe) : List String :=
  nm.tokenize_ingredients (pyJoin r.ingredients) ++ nm.extract_key_terms r.title

/-- The state of a built `RecipeIndexer`: the loaded recipes and the
position-aligned tokenized corpus.  The `bm25` field of the source is a pure
function of `tokenized_corpus` and is recomputed on demand here; the
`if not self.bm25` guard in `search` is unreachable once the constructor has
run, since `_build_index` always assigns `bm25`. -/
structure RecipeIndexer where
  recipes : List Recipe
  tokenized_corpus : List (List String)

/-- `RecipeIndexer.__init__` after `_load_recipes`: `_build_index` tokenizes
every loaded recipe in order. -/
def buildIndexer (nm : TextNormalizer) (recipes : List Recipe) : RecipeIndexer :=
  ⟨recipes, recipes.map (recipeTokens nm)⟩

/-- Number of occurrences of token `t` in document `doc` (term frequency). -/
def termFreq (t : String) (doc : List String) : Nat :=
  (doc.filter (fun w => w = t)).length

/-- Number of corpus documents containing token `t` (document frequency). -/
def docFreq (corpus : List (List String)) (t : String) : Nat :=
  (corpus.filter (fun doc => t ∈ doc)).length

/-- Average document length of the corpus, guarded to stay total on an empty
corpus. -/
def avgdl (corpus : List (List String)) : ℚ :=
  if corpus.length = 0 then 1
  else ((corpus.map List.length).sum : ℚ) / (corpus.length : ℚ)

/-- Modelled from the spec: the inverse-document-frequency weight of the
external `rank_bm25.BM25Okapi` backend, a library dependency whose source is not
part of this repository.  Per the spec it "reflect[s] how rare the term is
across the corpus", and the spec fixes all scores to be non-negative, so the
model uses the positive rational weight `(N - df + 1/2) / (df + 1/2)` (a
monotone surrogate for the logarithmic BM25 idf, positive since `df ≤ N`). -/
def idfQ (corpus : List (List String)) (t : String) : ℚ :=
  ((corpus.length : ℚ) - (docFreq corpus t : ℚ) + 1/2) / ((docFreq corpus t : ℚ) + 1/2)

/-- Modelled from the spec: the BM25 per-document score of the external
`rank_bm25` backend — "each query token's contribution combines its frequency
within the document, normalized by document length relative to the corpus
average, and an inverse-document-frequency weight" — with the standard
parameters `k1 = 3/2`, `b = 3/4`. -/
def docScore (corpus : List (List String)) (query : List String)
    (doc : List String) : ℚ :=
  (query.map (fun t =>
    let f : ℚ := (termFreq t doc : ℚ)
    idfQ corpus t *
      (f * (3/2 + 1)) /
      (f + 3/2 * (1 - 3/4 + 3/4 * (doc.length : ℚ) / avgdl corpus)))).sum

/-- Modelled from the spec: `self.bm25.get_scores(query_tokens)` — one score per
corpus document, position-aligned. -/
def bm25GetScores (corpus : List (List String)) (query : List String) : List ℚ :=
  corpus.map (docScore corpus query)

/-- First-occurrence deduplication, as done by the `seen`-set comprehension in
`RecipeIndexer.search`. -/
def dedupAux (seen : List String) : List String → List String
  | [] => []
  | t :: ts => if t ∈ seen then dedupAux seen ts else t :: dedupAux (t :: seen) ts

/-- `[t for t in query_tokens if not (t in seen or seen.add(t))]`. -/
def dedupFirst (l : List String) : List String := dedupAux [] l

/-- The query tokens built by `RecipeIndexer.search`: normalize each raw
ingredient with stopword removal, split each normalized phrase on whitespace,
flatten, and deduplicate preserving first occurrence. -/
def queryTokens (nm : TextNormalizer) (ingredients : List String) : List String :=
  dedupFirst (((nm.normalize_list ingredients true).map pyWords).flatten)

/-- The comparison realized by
`sorted(range(len(scores)), key=lambda i: scores[i], reverse=True)`:
Python's sort is stable and `reverse=True` keeps the original order of equal
keys, which is exactly the total order "higher score first, ties by smaller
index first". -/
def rankLe (scores : List ℚ) (i j : Nat) : Bool :=
  if scores.getD j 0 < scores.getD i 0 then true
  else if scores.getD i 0 = scores.getD j 0 then Nat.ble i j
  else false

/-- Insert into a sorted list, keeping earlier elements first on ties of `le`
(`le` is total and antisymmetric at its use site, so the sorted result is the
unique sorted permutation — the one Python's stable `sorted` returns). -/
def insertLe (le : Nat → Nat → Bool) (a : Nat) : List Nat → List Nat
  | [] => [a]
  | b :: bs => if le a b = true then a :: b :: bs else b :: insertLe le a bs

/-- Insertion sort by `le`. -/
def sortLe (le : Nat → Nat → Bool) : List Nat → List Nat
  | [] => []
  | a :: as => insertLe le a (sortLe le as)

/-- `RecipeIndexer.search`: build the deduplicated query tokens; on an empty
token list return no results; otherwise score every document, order all
document indices by descending score with ties in corpus order, take the top
`k`, and return a copy of each stored recipe with `score` populated
(`model_copy()` followed by a `score` assignment on the copy). -/
def RecipeIndexer.search (idx : RecipeIndexer) (nm : TextNormalizer)
    (ingredients : List String) (k : Nat) : List Recipe :=
  let query_tokens := queryTokens nm ingredients
  if query_tokens.isEmpty then []
  else
    let scores := bm25GetScores idx.tokenized_corpus query_tokens
    let top_indices := (sortLe (rankLe scores) (List.range scores.length)).take k
    top_indices.map (fun i =>
      { idx.recipes.getD i default with score := some (scores.getD i 0) })

/-- `RecipeIndexer.get_recipe_by_id`: first stored recipe with the given id,
`None` when there is none. -/
def RecipeIndexer.get_recipe_by_id (idx : RecipeIndexer) (recipe_id : Int) :
    Option Recipe :=
  idx.recipes.find? (fun r => r.id == recipe_id)

/-- `RecipeIndexer.get_recipe_count`. -/
def RecipeIndexer.get_recipe_count (idx : RecipeIndexer) : Nat :=
  idx.recipes.length

/-- Modelled from the spec: the behaviour of nltk's `WordNetLemmatizer` (an
external dependency outside this repository) on the concrete words used in the
examples below — plural noun forms are reduced to their singular dictionary
base form and base forms are left unchanged. -/
def wordnetLemma (w : String) : String :=
  match List.lookup w [("tomatoes", "tomato"), ("cups", "cup"), ("noodles", "noodle")] with
  | some v => v
  | none => w

/-- A concrete normalizer used for witnesses and counterexamples: empty synonym
table (the spec allows an empty table when the synonym source is missing), the
default stopword set of the source, and the modelled lemmatizer. -/
def nmEx : TextNormalizer := ⟨[], defaultStopwords, wordnetLemma⟩

/-! ### Character-level facts about the modelled Python string primitives -/

theorem char_toNat_ofNat (n : Nat) (h : n < 55296) : (Char.ofNat n).toNat = n := by
  have hv : n.isValidChar := Or.inl h
  rw [Char.ofNat, dif_pos hv]
  simp [Char.ofNatAux, Char.toNat, UInt32.toNat, BitVec.toNat_ofNat]

theorem toLower_toNat (c : Char) :
    c.toLower.toNat = if 65 ≤ c.toNat ∧ c.toNat ≤ 90 then c.toNat + 32 else c.toNat := by
  show (if c.toNat ≥ 65 ∧ c.toNat ≤ 90 then Char.ofNat (c.toNat + 32) else c).toNat = _
  split
  · exact char_toNat_ofNat _ (by omega)
  · rfl

theorem toLower_idem (c : Char) : c.toLower.toLower = c.toLower := by
  have h1 := toLower_toNat c
  show (if c.toLower.toNat ≥ 65 ∧ c.toLower.toNat ≤ 90 then
      Char.ofNat (c.toLower.toNat + 32) else c.toLower) = c.toLower
  rw [if_neg]
  split at h1 <;> omega

/-- A canonical-word character: an ASCII word character or hyphen, fixed under
lowercasing, and not whitespace.  Characters of words produced by the
normalization pipeline satisfy this. -/
def isCleanChar (c : Char) : Bool :=
  (c.isAlphanum || c == '_' || c == '-') && (c.toLower == c) && !c.isWhitespace

theorem isCleanChar_not_ws {c : Char} (h : isCleanChar c = true) :
    c.isWhitespace = false := by
  simp only [isCleanChar, Bool.and_eq_true, Bool.not_eq_true'] at h
  exact h.2

theorem isCleanChar_toLower {c : Char} (h : isCleanChar c = true) : c.toLower = c := by
  simp only [isCleanChar, Bool.and_eq_true, beq_iff_eq] at h
  exact h.1.2

theorem isCleanChar_kept {c : Char} (h : isCleanChar c = true) : isKeptChar c = true := by
  simp only [isCleanChar, Bool.and_eq_true, Bool.or_eq_true, beq_iff_eq] at h
  simp only [isKeptChar, Bool.or_eq_true, beq_iff_eq]
  tauto

theorem isCleanChar_of (hk : isKeptChar c = true) (hw : c.isWhitespace = false)
    (hl : c.toLower = c) : isCleanChar c = true := by
  simp only [isKeptChar, Bool.or_eq_true, beq_iff_eq] at hk
  simp only [isCleanChar, Bool.and_eq_true, Bool.or_eq_true, beq_iff_eq,
    Bool.not_eq_true']
  refine ⟨⟨?_, hl⟩, hw⟩
  have hw2 : ¬ c.isWhitespace = true := by simp [hw]
  tauto

/-- A canonical word: non-empty and made of clean characters only. -/
def CleanStr (w : String) : Prop := w ≠ "" ∧ ∀ c ∈ w.data, isCleanChar c = true

instance : DecidablePred CleanStr := fun w =>
  decidable_of_iff (w ≠ "" ∧ ∀ c ∈ w.data, isCleanChar c = true) Iff.rfl

theorem string_mk_ne_empty {l : List Char} (h : l ≠ []) : String.mk l ≠ "" := by
  intro hc
  exact h (by simpa using congrArg String.data hc)

theorem reverse_ne_nil_of_not_isEmpty {α : Type} {l : List α} (h : ¬ l.isEmpty = true) :
    l.reverse ≠ [] := by
  rw [List.isEmpty_iff] at h
  simpa [List.reverse_eq_nil_iff] using h

/-! ### Soundness of `pyWords`: words are non-empty, whitespace-free pieces of
the input -/

theorem wordsAux_sound : ∀ (l acc : List Char), (∀ c ∈ acc, c.isWhitespace = false) →
    ∀ W ∈ wordsAux l acc, W ≠ [] ∧ ∀ c ∈ W, (c ∈ acc ∨ c ∈ l) ∧ c.isWhitespace = false
  | [], acc, hacc, W, hW => by
    rw [wordsAux] at hW
    split at hW
    · cases hW
    · next hne =>
      rw [List.mem_singleton] at hW
      subst hW
      refine ⟨reverse_ne_nil_of_not_isEmpty hne, ?_⟩
      intro c hc
      rw [List.mem_reverse] at hc
      exact ⟨Or.inl hc, hacc c hc⟩
  | a :: l, acc, hacc, W, hW => by
    rw [wordsAux] at hW
    split at hW
    · next hws =>
      split at hW
      · next hemp =>
        have := wordsAux_sound l [] (by intro c hc; cases hc) W hW
        refine ⟨this.1, fun c hc => ?_⟩
        have h2 := this.2 c hc
        refine ⟨?_, h2.2⟩
        rcases h2.1 with h | h
        · cases h
        · exact Or.inr (List.mem_cons_of_mem _ h)
      · next hemp =>
        rcases List.mem_cons.mp hW with hW | hW
        · subst hW
          refine ⟨reverse_ne_nil_of_not_isEmpty hemp, ?_⟩
          intro c hc
          rw [List.mem_reverse] at hc
          exact ⟨Or.inl hc, hacc c hc⟩
        · have := wordsAux_sound l [] (by intro c hc; cases hc) W hW
          refine ⟨this.1, fun c hc => ?_⟩
          have h2 := this.2 c hc
          refine ⟨?_, h2.2⟩
          rcases h2.1 with h | h
          · cases h
          · exact Or.inr (List.mem_cons_of_mem _ h)
    · next hws =>
      have hacc2 : ∀ c ∈ a :: acc, c.isWhitespace = false := by
        intro c hc
        rcases List.mem_cons.mp hc with rfl | hc
        · simpa using hws
        · exact hacc c hc
      have := wordsAux_sound l (a :: acc) hacc2 W hW
      refine ⟨this.1, fun c hc => ?_⟩
      have h2 := this.2 c hc
      refine ⟨?_, h2.2⟩
      rcases h2.1 with h | h
      · rcases List.mem_cons.mp h with rfl | h
        · exact Or.inr (List.mem_cons_self _ _)
        · exact Or.inl h
      · exact Or.inr (List.mem_cons_of_mem _ h)

theorem pyWords_sound (s : String) :
    ∀ w ∈ pyWords s, w ≠ "" ∧ ∀ c ∈ w.data, c ∈ s.data ∧ c.isWhitespace = false := by
  intro w hw
  rw [pyWords, List.mem_map] at hw
  obtain ⟨W, hW, rfl⟩ := hw
  have := wordsAux_sound s.data [] (by intro c hc; cases hc) W hW
  refine ⟨string_mk_ne_empty this.1, ?_⟩
  intro c hc
  have h2 := this.2 c hc
  refine ⟨?_, h2.2⟩
  rcases h2.1 with h | h
  · cases h
  · exact h

theorem joinChars_mem : ∀ (ws : List (List Char)) (c : Char), c ∈ joinChars ws →
    c = ' ' ∨ ∃ w ∈ ws, c ∈ w
  | [], c, h => by cases h
  | [w], c, h => Or.inr ⟨w, List.mem_singleton_self w, h⟩
  | w :: w2 :: ws, c, h => by
    rw [joinChars, List.mem_append] at h
    rcases h with h | h
    · exact Or.inr ⟨w, List.mem_cons_self _ _, h⟩
    · rcases List.mem_cons.mp h with rfl | h
      · exact Or.inl rfl
      · rcases joinChars_mem (w2 :: ws) c h with h | ⟨w', hw', hc⟩
        · exact Or.inl h
        · exact Or.inr ⟨w', List.mem_cons_of_mem _ hw', hc⟩

theorem pyJoin_mem (l : List String) (c : Char) (h : c ∈ (pyJoin l).data) :
    c = ' ' ∨ ∃ w ∈ l, c ∈ w.data := by
  rcases joinChars_mem (l.map String.data) c h with h | ⟨w, hw, hc⟩
  · exact Or.inl h
  · rw [List.mem_map] at hw
    obtain ⟨w', hw', rfl⟩ := hw
    exact Or.inr ⟨w', hw', hc⟩

theorem wordsAux_word : ∀ (w rest acc : List Char), (∀ c ∈ w, c.isWhitespace = false) →
    wordsAux (w ++ rest) acc = wordsAux rest (w.reverse ++ acc)
  | [], rest, acc, _ => by simp
  | a :: w, rest, acc, h => by
    have ha : a.isWhitespace = false := h a (List.mem_cons_self _ _)
    rw [List.cons_append, wordsAux, if_neg (by simp [ha]),
      wordsAux_word w rest (a :: acc) (fun c hc => h c (List.mem_cons_of_mem _ hc))]
    simp

theorem joinChars_words : ∀ ws : List (List Char),
    (∀ w ∈ ws, w ≠ [] ∧ ∀ c ∈ w, c.isWhitespace = false) →
    wordsAux (joinChars ws) [] = ws
  | [], _ => by rw [joinChars, wordsAux]; rfl
  | [w], h => by
    have hw := h w (List.mem_singleton_self w)
    have : wordsAux (w ++ []) [] = wordsAux [] (w.reverse ++ []) :=
      wordsAux_word w [] [] hw.2
    rw [List.append_nil] at this
    rw [joinChars, this, List.append_nil, wordsAux,
      if_neg (by rw [List.isEmpty_iff, List.reverse_eq_nil_iff]; exact hw.1)]
    simp
  | w :: w2 :: ws, h => by
    have hw := h w (List.mem_cons_self _ _)
    rw [joinChars, wordsAux_word w (' ' :: joinChars (w2 :: ws)) [] hw.2,
      List.append_nil, wordsAux, if_pos (by simp),
      if_neg (by rw [List.isEmpty_iff, List.reverse_eq_nil_iff]; exact hw.1),
      joinChars_words (w2 :: ws) (fun x hx => h x (List.mem_cons_of_mem _ hx))]
    simp

theorem pyWords_pyJoin (l : List String)
    (h : ∀ w ∈ l, w ≠ "" ∧ ∀ c ∈ w.data, c.isWhitespace = false) :
    pyWords (pyJoin l) = l := by
  rw [pyWords, pyJoin]
  show (wordsAux (joinChars (l.map String.data)) []).map String.mk = l
  rw [joinChars_words (l.map String.data) ?hws]
  · rw [List.map_map]
    have : (String.mk ∘ String.data) = id := by
      funext s; rfl
    rw [this, List.map_id]
  · intro w hw
    rw [List.mem_map] at hw
    obtain ⟨w', hw', rfl⟩ := hw
    have h2 := h w' hw'
    constructor
    · intro hc
      exact h2.1 (String.ext (show w'.data = ("" : String).data by simpa using hc))
    · exact h2.2

theorem lookup_mem {α β : Type} [BEq α] [LawfulBEq α] :
    ∀ (d : List (α × β)) (k : α) (v : β), d.lookup k = some v → (k, v) ∈ d
  | [], _, _, h => by cases h
  | p :: d, k, v, h => by
    rw [List.lookup] at h
    split at h
    · next heq =>
      rw [List.mem_cons]
      left
      injection h with h
      rw [eq_of_beq heq, ← h]
    · exact List.mem_cons_of_mem _ (lookup_mem d k v h)

theorem pyLower_chars (s : String) (c : Char) (h : c ∈ (pyLower s).data) :
    c.toLower = c := by
  rw [pyLower, List.mem_map] at h
  obtain ⟨c', _, rfl⟩ := h
  exact toLower_idem c'

theorem pyStrip_chars (s : String) (c : Char) (h : c ∈ (pyStrip s).data) : c ∈ s.data := by
  rw [pyStrip] at h
  rw [List.mem_reverse] at h
  have h2 := (List.dropWhile_sublist _).mem h
  rw [List.mem_reverse] at h2
  exact (List.dropWhile_sublist _).mem h2

theorem pyStripPunct_chars (s : String) (c : Char) (h : c ∈ (pyStripPunct s).data) :
    c = ' ' ∨ (c ∈ s.data ∧ isKeptChar c = true) := by
  rw [pyStripPunct, List.mem_map] at h
  obtain ⟨c', hc', hif⟩ := h
  by_cases hk : isKeptChar c' = true
  · rw [if_pos hk] at hif
    exact Or.inr ⟨hif ▸ hc', hif ▸ hk⟩
  · rw [if_neg hk] at hif
    exact Or.inl hif.symm

theorem words_clean_of_chars (t : String)
    (h : ∀ c ∈ t.data, isCleanChar c = true ∨ c.isWhitespace = true) :
    ∀ w ∈ pyWords t, CleanStr w := by
  intro w hw
  have hs := pyWords_sound t w hw
  refine ⟨hs.1, fun c hc => ?_⟩
  have h2 := hs.2 c hc
  rcases h (c := c) h2.1 with h3 | h3
  · exact h3
  · rw [h2.2] at h3; cases h3

theorem pipeline_words_clean (s : String) :
    ∀ w ∈ pyWords (collapseWS (pyStripPunct (pyStrip (pyLower s)))), CleanStr w := by
  intro w hw
  have hs := pyWords_sound _ w hw
  refine ⟨hs.1, fun c hc => ?_⟩
  have h2 := hs.2 c hc
  have hco := h2.1
  rw [collapseWS] at hco
  rcases pyJoin_mem _ c hco with rfl | ⟨w', hw', hc'⟩
  · cases h2.2
  · have h3 := (pyWords_sound _ w' hw').2 c hc'
    rcases pyStripPunct_chars _ c h3.1 with rfl | ⟨hmem, hkept⟩
    · cases h2.2
    · have hlow := pyLower_chars s c (pyStrip_chars _ c hmem)
      exact isCleanChar_of hkept h2.2 hlow

theorem plural_values_clean :
    ∀ p ∈ plural_map, ∀ c ∈ (p.2 : String).data, isCleanChar c = true := by decide

/-- Cleanliness condition on the external synonym table: every character of a
replacement phrase is a clean word character or whitespace. -/
def SynTableClean (syn : List (String × String)) : Prop :=
  ∀ p ∈ syn, ∀ c ∈ (p.2 : String).data, isCleanChar c = true ∨ c.isWhitespace = true

instance (syn : List (String × String)) : Decidable (SynTableClean syn) :=
  decidable_of_iff
    (∀ p ∈ syn, ∀ c ∈ (p.2 : String).data, isCleanChar c = true ∨ c.isWhitespace = true)
    Iff.rfl

theorem normalize_words (nm : TextNormalizer) (x : String) (r : Bool)
    (hsynv : SynTableClean nm.synonyms) :
    ∃ pre : List String, (∀ w ∈ pre, CleanStr w) ∧
      pre = pyWords (applyMap plural_map (applyMap nm.synonyms
              (collapseWS (pyStripPunct (pyStrip (pyLower x)))))) ∧
      nm.normalize x r =
        pyJoin (if r then
            (pre.map nm.lemmatize).filter (fun w => !nm.stopwords.contains w)
          else pre.map nm.lemmatize) := by
  refine ⟨_, ?_, rfl, rfl⟩
  set t0 := collapseWS (pyStripPunct (pyStrip (pyLower x))) with ht0
  intro w hw
  rcases hpl : plural_map.lookup (applyMap nm.synonyms t0) with _ | v
  · have h1 : applyMap plural_map (applyMap nm.synonyms t0) = applyMap nm.synonyms t0 := by
      rw [applyMap, hpl]
    rw [h1] at hw
    rcases hsy : nm.synonyms.lookup t0 with _ | v'
    · have h2 : applyMap nm.synonyms t0 = t0 := by rw [applyMap, hsy]
      rw [h2] at hw
      exact pipeline_words_clean x w hw
    · have h2 : applyMap nm.synonyms t0 = v' := by rw [applyMap, hsy]
      rw [h2] at hw
      exact words_clean_of_chars v'
        (fun c hc => hsynv _ (lookup_mem _ _ _ hsy) c hc) w hw
  · have h1 : applyMap plural_map (applyMap nm.synonyms t0) = v := by
      rw [applyMap, hpl]
    rw [h1] at hw
    exact words_clean_of_chars v
      (fun c hc => Or.inl (plural_values_clean _ (lookup_mem _ _ _ hpl) c hc)) w hw

/-! ### The descending stable sort of `RecipeIndexer.search` -/

theorem insertLe_perm (le : Nat → Nat → Bool) (a : Nat) :
    ∀ l : List Nat, (insertLe le a l).Perm (a :: l)
  | [] => List.Perm.refl _
  | b :: bs => by
    rw [insertLe]
    split
    · exact List.Perm.refl _
    · exact ((insertLe_perm le a bs).cons b).trans (List.Perm.swap a b bs)

theorem sortLe_perm (le : Nat → Nat → Bool) : ∀ l : List Nat, (sortLe le l).Perm l
  | [] => List.Perm.refl _
  | a :: as =>
    (insertLe_perm le a (sortLe le as)).trans ((sortLe_perm le as).cons a)

theorem sortLe_length (le : Nat → Nat → Bool) (l : List Nat) :
    (sortLe le l).length = l.length :=
  (sortLe_perm le l).length_eq

theorem insertLe_pairwise (le : Nat → Nat → Bool)
    (htot : ∀ i j, (le i j || le j i) = true)
    (htrans : ∀ i j k, le i j = true → le j k = true → le i k = true) (a : Nat) :
    ∀ l : List Nat, List.Pairwise (fun i j => le i j = true) l →
      List.Pairwise (fun i j => le i j = true) (insertLe le a l)
  | [], _ => List.pairwise_singleton _ a
  | b :: bs, hp => by
    rw [insertLe]
    have hpb := List.pairwise_cons.mp hp
    split
    · next hab =>
      rw [List.pairwise_cons]
      refine ⟨fun x hx => ?_, hp⟩
      rcases List.mem_cons.mp hx with rfl | hx
      · exact hab
      · exact htrans a b x hab (hpb.1 x hx)
    · next hab =>
      rw [List.pairwise_cons]
      have hba : le b a = true := by
        have := htot a b
        rw [Bool.or_eq_true] at this
        rcases this with h | h
        · exact absurd h hab
        · exact h
      refine ⟨fun x hx => ?_, insertLe_pairwise le htot htrans a bs hpb.2⟩
      have hxmem := (insertLe_perm le a bs).mem_iff.mp hx
      rcases List.mem_cons.mp hxmem with rfl | hx2
      · exact hba
      · exact hpb.1 x hx2

theorem sortLe_pairwise (le : Nat → Nat → Bool)
    (htot : ∀ i j, (le i j || le j i) = true)
    (htrans : ∀ i j k, le i j = true → le j k = true → le i k = true) :
    ∀ l : List Nat, List.Pairwise (fun i j => le i j = true) (sortLe le l)
  | [] => List.Pairwise.nil
  | a :: as =>
    insertLe_pairwise le htot htrans a (sortLe le as) (sortLe_pairwise le htot htrans as)

theorem rankLe_iff (scores : List ℚ) (i j : Nat) :
    rankLe scores i j = true ↔
      (scores.getD j 0 < scores.getD i 0 ∨
        (scores.getD i 0 = scores.getD j 0 ∧ i ≤ j)) := by
  rw [rankLe]
  split
  · next h => exact iff_of_true rfl (Or.inl h)
  · next h =>
    split
    · next he =>
      rw [Nat.ble_eq]
      constructor
      · intro hij
        exact Or.inr ⟨he, hij⟩
      · intro hp
        rcases hp with hp | ⟨_, hij⟩
        · exact absurd hp h
        · exact hij
    · next he =>
      constructor
      · intro hF
        cases hF
      · intro hp
        rcases hp with hp | ⟨hpe, _⟩
        · exact absurd hp h
        · exact absurd hpe he

theorem rankLe_total (scores : List ℚ) (i j : Nat) :
    (rankLe scores i j || rankLe scores j i) = true := by
  rw [Bool.or_eq_true, rankLe_iff, rankLe_iff]
  rcases lt_trichotomy (scores.getD i 0) (scores.getD j 0) with h | h | h
  · exact Or.inr (Or.inl h)
  · rcases Nat.le_total i j with hij | hij
    · exact Or.inl (Or.inr ⟨h, hij⟩)
    · exact Or.inr (Or.inr ⟨h.symm, hij⟩)
  · exact Or.inl (Or.inl h)

theorem rankLe_trans (scores : List ℚ) (i j k : Nat) (h1 : rankLe scores i j = true)
    (h2 : rankLe scores j k = true) : rankLe scores i k = true := by
  rw [rankLe_iff] at h1 h2 ⊢
  rcases h1 with h1 | ⟨h1e, h1n⟩
  · rcases h2 with h2 | ⟨h2e, _⟩
    · exact Or.inl (h2.trans h1)
    · exact Or.inl (h2e ▸ h1)
  · rcases h2 with h2 | ⟨h2e, h2n⟩
    · exact Or.inl (h1e ▸ h2)
    · exact Or.inr ⟨h1e.trans h2e, h1n.trans h2n⟩

/-! ### Loader facts -/

theorem parseRow_ok_score {row : RawRow} {r : Recipe} (h : parseRow row = RowOutcome.ok r) :
    r.score = none := by
  rw [parseRow] at h
  split at h
  · cases h
  · split at h
    · cases h
    · split at h
      · cases h
      · split at h
        · cases h
        · split at h
          · injection h with h
            rw [← h]
          · cases h

theorem rowRecipe_score {row : RawRow} {r : Recipe} (h : rowRecipe row = some r) :
    r.score = none := by
  rw [rowRecipe] at h
  split at h
  · next hp =>
    injection h with h
    exact h ▸ parseRow_ok_score hp
  · cases h

theorem rowRecipe_eq_some {row : RawRow} {r : Recipe} (h : parseRow row = RowOutcome.ok r) :
    rowRecipe row = some r := by
  rw [rowRecipe, h]

theorem rowRecipe_eq_none_of_skip {row : RawRow} (h : parseRow row = RowOutcome.skip) :
    rowRecipe row = none := by
  rw [rowRecipe, h]

theorem loadRecipes_some_fst : ∀ {rows : List RawRow} {rs : List Recipe} {sk : Nat},
    loadRecipes rows = some (rs, sk) → rs = rows.filterMap rowRecipe
  | [], rs, sk, h => by
    rw [loadRecipes] at h
    rw [List.filterMap_nil]
    exact (congrArg Prod.fst (Option.some.inj h)).symm
  | row :: rest, rs, sk, h => by
    rw [loadRecipes] at h
    rcases hp : parseRow row with r | _ | _ <;> rw [hp] at h
    · rcases hrec : loadRecipes rest with _ | ⟨rs2, sk2⟩ <;> rw [hrec] at h
      · cases h
      · have h2 := Option.some.inj h
        have hfst : r :: rs2 = rs := congrArg Prod.fst h2
        rw [List.filterMap_cons, rowRecipe_eq_some hp, ← hfst]
        exact congrArg (r :: ·) (loadRecipes_some_fst hrec)
    · rcases hrec : loadRecipes rest with _ | ⟨rs2, sk2⟩ <;> rw [hrec] at h
      · cases h
      · have h2 := Option.some.inj h
        have hfst : rs2 = rs := congrArg Prod.fst h2
        rw [List.filterMap_cons, rowRecipe_eq_none_of_skip hp, ← hfst]
        exact loadRecipes_some_fst hrec
    · cases h

theorem loadRecipes_some_snd : ∀ {rows : List RawRow} {rs : List Recipe} {sk : Nat},
    loadRecipes rows = some (rs, sk) →
    sk = (rows.filter (fun row => parseRow row = RowOutcome.skip)).length
  | [], rs, sk, h => by
    rw [loadRecipes] at h
    rw [List.filter_nil]
    exact (congrArg Prod.snd (Option.some.inj h)).symm
  | row :: rest, rs, sk, h => by
    rw [loadRecipes] at h
    rcases hp : parseRow row with r | _ | _ <;> rw [hp] at h
    · rcases hrec : loadRecipes rest with _ | ⟨rs2, sk2⟩ <;> rw [hrec] at h
      · cases h
      · have hsnd : sk2 = sk := congrArg Prod.snd (Option.some.inj h)
        rw [List.filter_cons, if_neg (by simp [hp]), ← hsnd]
        exact loadRecipes_some_snd hrec
    · rcases hrec : loadRecipes rest with _ | ⟨rs2, sk2⟩ <;> rw [hrec] at h
      · cases h
      · have hsnd : sk2 + 1 = sk := congrArg Prod.snd (Option.some.inj h)
        rw [List.filter_cons, if_pos (by simp [hp]), List.length_cons, ← hsnd]
        exact congrArg (· + 1) (loadRecipes_some_snd hrec)
    · cases h

theorem loadRecipes_ok_prefix : ∀ (pre : List RawRow) {rest : List RawRow}
    {rs : List Recipe} {sk : Nat},
    (∀ row ∈ pre, (rowRecipe row).isSome = true) →
    loadRecipes rest = some (rs, sk) →
    ∃ rs0 : List Recipe, loadRecipes (pre ++ rest) = some (rs0 ++ rs, sk) ∧
      rs0.length = pre.length
  | [], rest, rs, sk, _, hrest => ⟨[], by simpa using hrest, rfl⟩
  | row :: pre2, rest, rs, sk, hok, hrest => by
    have hrow := hok row (List.mem_cons_self _ _)
    rcases hp : parseRow row with r | _ | _
    · obtain ⟨rs0, hload, hlen⟩ := loadRecipes_ok_prefix pre2
        (fun x hx => hok x (List.mem_cons_of_mem _ hx)) hrest
      refine ⟨r :: rs0, ?_, by simp [hlen]⟩
      rw [List.cons_append, loadRecipes, hp, hload]
      rfl
    · rw [rowRecipe, hp] at hrow
      cases hrow
    · rw [rowRecipe, hp] at hrow
      cases hrow

/-- Characterization of `RecipeIndexer.search` used to reason about it. -/
theorem search_eq (idx : RecipeIndexer) (nm : TextNormalizer)
    (ingredients : List String) (k : Nat) :
    idx.search nm ingredients k =
      if (queryTokens nm ingredients).isEmpty then []
      else
        ((sortLe (rankLe (bm25GetScores idx.tokenized_corpus (queryTokens nm ingredients)))
            (List.range (bm25GetScores idx.tokenized_corpus
              (queryTokens nm ingredients)).length)).take k).map
          (fun i => { idx.recipes.getD i default with
            score := some ((bm25GetScores idx.tokenized_corpus
              (queryTokens nm ingredients)).getD i 0) }) := rfl

theorem bm25GetScores_length (corpus : List (List String)) (query : List String) :
    (bm25GetScores corpus query).length = corpus.length := by
  rw [bm25GetScores, List.length_map]

theorem buildIndexer_corpus_length (nm : TextNormalizer) (recipes : List Recipe) :
    (buildIndexer nm recipes).tokenized_corpus.length = recipes.length := by
  rw [buildIndexer, List.length_map]

/-- C4: the sequence of recipes returned by `search` is the image of a list of
document indices that is duplicate-free, in range, and sorted by non-increasing
score with ties in original corpus (insertion) order; each returned recipe is
the stored recipe at its index with `score` set to that document's score. -/
theorem search_sorted_by_score (nm : TextNormalizer) (recipes : List Recipe)
    (ingredients : List String) (k : Nat) :
    ∃ is : List Nat,
      (buildIndexer nm recipes).search nm ingredients k =
        is.map (fun i =>
          { recipes.getD i default with
            score := some ((bm25GetScores (buildIndexer nm recipes).tokenized_corpus
              (queryTokens nm ingredients)).getD i 0) }) ∧
      is.Nodup ∧
      (∀ i ∈ is, i < recipes.length) ∧
      List.Pairwise (fun i j =>
        (bm25GetScores (buildIndexer nm recipes).tokenized_corpus
            (queryTokens nm ingredients)).getD j 0 <
          (bm25GetScores (buildIndexer nm recipes).tokenized_corpus
            (queryTokens nm ingredients)).getD i 0 ∨
        ((bm25GetScores (buildIndexer nm recipes).tokenized_corpus
            (queryTokens nm ingredients)).getD i 0 =
          (bm25GetScores (buildIndexer nm recipes).tokenized_corpus
            (queryTokens nm ingredients)).getD j 0 ∧ i ≤ j)) is := by
  rw [search_eq]
  split
  · exact ⟨[], rfl, List.nodup_nil, by simp, List.Pairwise.nil⟩
  · set scores := bm25GetScores (buildIndexer nm recipes).tokenized_corpus
      (queryTokens nm ingredients) with hscores
    refine ⟨(sortLe (rankLe scores) (List.range scores.length)).take k, rfl, ?_, ?_, ?_⟩
    · exact ((sortLe_perm _ _).symm.nodup (List.nodup_range _)).sublist
        (List.take_sublist _ _)
    · intro i hi
      have h1 : i ∈ sortLe (rankLe scores) (List.range scores.length) :=
        (List.take_sublist _ _).mem hi
      have h2 : i ∈ List.range scores.length := (sortLe_perm _ _).mem_iff.mp h1
      rw [List.mem_range] at h2
      rw [hscores, bm25GetScores_length, buildIndexer_corpus_length] at h2
      exact h2
    · have hp := sortLe_pairwise (rankLe scores) (rankLe_total scores)
        (rankLe_trans scores) (List.range scores.length)
      have hp2 : List.Pairwise (fun i j => rankLe scores i j = true)
          ((sortLe (rankLe scores) (List.range scores.length)).take k) :=
        hp.sublist (List.take_sublist k _)
      exact hp2.imp (fun h => (rankLe_iff scores _ _).mp h)

/-- C5: `search` returns at most `k` recipes for every `k ≥ 0`, and exactly
`min k corpusSize` recipes whenever the deduplicated query token list is
non-empty and at least `k` corpus documents share at least one token with it
(zero-overlap documents still receive a score and may appear). -/
theorem search_topk_bound (nm : TextNormalizer) (recipes : List Recipe)
    (ingredients : List String) (k : Nat) :
    ((buildIndexer nm recipes).search nm ingredients k).length ≤ k ∧
    (queryTokens nm ingredients ≠ [] →
      k ≤ ((buildIndexer nm recipes).tokenized_corpus.filter
        (fun doc => (queryTokens nm ingredients).any (fun t => doc.contains t))).length →
      ((buildIndexer nm recipes).search nm ingredients k).length = min k recipes.length) := by
  constructor
  · rw [search_eq]
    split
    · simp
    · rw [List.length_map, List.length_take]
      exact Nat.min_le_left _ _
  · intro hq _
    rw [search_eq, if_neg (by simpa [List.isEmpty_iff] using hq), List.length_map,
      List.length_take, sortLe_length, List.length_range, bm25GetScores_length,
      buildIndexer_corpus_length]

/-- C7 amended: when loading a corpus source with zero valid records completes
without a fatal row (every malformed record raises only a caught
KeyError/ValueError, or the source is empty), construction succeeds with an
empty index and every subsequent search call returns the empty result list
rather than failing. -/
theorem search_empty_corpus (nm : TextNormalizer) (rows : List RawRow)
    (ingredients : List String) (k : Nat) (recipes : List Recipe) (skipped : Nat)
    (hload : loadRecipes rows = some (recipes, skipped))
    (hnil : recipes = []) :
    (buildIndexer nm recipes).search nm ingredients k = [] := by
  subst hnil
  rw [search_eq]
  split
  · rfl
  · simp [buildIndexer, bm25GetScores, sortLe]

/-! ### Non-negativity of the modelled ranking scores -/

theorem docFreq_le_length (corpus : List (List String)) (t : String) :
    docFreq corpus t ≤ corpus.length :=
  List.length_filter_le _ _

theorem avgdl_nonneg (corpus : List (List String)) : 0 ≤ avgdl corpus := by
  rw [avgdl]
  split
  · norm_num
  · exact div_nonneg (by positivity) (by positivity)

theorem idfQ_nonneg (corpus : List (List String)) (t : String) : 0 ≤ idfQ corpus t := by
  rw [idfQ]
  apply div_nonneg
  · have h := docFreq_le_length corpus t
    have h2 : (docFreq corpus t : ℚ) ≤ (corpus.length : ℚ) := by exact_mod_cast h
    linarith
  · positivity

theorem docScore_nonneg (corpus : List (List String)) (query : List String)
    (doc : List String) : 0 ≤ docScore corpus query doc := by
  rw [docScore]
  apply List.sum_nonneg
  intro x hx
  rw [List.mem_map] at hx
  obtain ⟨t, _, rfl⟩ := hx
  apply div_nonneg
  · exact mul_nonneg (idfQ_nonneg _ _) (by positivity)
  · have h := avgdl_nonneg corpus
    have h2 : (0:ℚ) ≤ 3 / 4 * (doc.length : ℚ) / avgdl corpus :=
      div_nonneg (by positivity) h
    have h3 : (0:ℚ) ≤ (termFreq t doc : ℚ) := by positivity
    linarith

theorem termFreq_eq_zero {t : String} {doc : List String} (h : t ∉ doc) :
    termFreq t doc = 0 := by
  rw [termFreq, List.length_eq_zero, List.filter_eq_nil_iff]
  intro w hw
  simp only [decide_eq_true_eq]
  intro hc
  exact h (hc ▸ hw)

theorem docScore_zero_of_no_overlap (corpus : List (List String))
    (query : List String) (doc : List String) (h : ∀ t ∈ query, t ∉ doc) :
    docScore corpus query doc = 0 := by
  rw [docScore]
  apply List.sum_eq_zero
  intro x hx
  rw [List.mem_map] at hx
  obtain ⟨t, ht, rfl⟩ := hx
  rw [termFreq_eq_zero (h t ht)]
  norm_num

theorem bm25GetScores_getD_nonneg (corpus : List (List String)) (query : List String)
    (i : Nat) : 0 ≤ (bm25GetScores corpus query).getD i 0 := by
  have hall : ∀ x ∈ bm25GetScores corpus query, 0 ≤ x := by
    intro x hx
    rw [show bm25GetScores corpus query = corpus.map (docScore corpus query) from rfl,
      List.mem_map] at hx
    obtain ⟨doc, _, rfl⟩ := hx
    exact docScore_nonneg corpus query doc
  rcases Nat.lt_or_ge i (bm25GetScores corpus query).length with hi | hi
  · rw [List.getD_eq_getElem _ _ hi]
    exact hall _ (List.getElem_mem hi)
  · rw [List.getD_eq_default _ _ hi]

/-- C3: every relevance score attached by `search` to a returned recipe is a
non-negative rational, and a document sharing no token with the query receives
score exactly 0 (no relevance signal). -/
theorem search_scores_nonneg (nm : TextNormalizer) (recipes : List Recipe)
    (ingredients : List String) (k : Nat) :
    (∀ res ∈ (buildIndexer nm recipes).search nm ingredients k,
      ∃ s : ℚ, res.score = some s ∧ 0 ≤ s) ∧
    (∀ doc ∈ (buildIndexer nm recipes).tokenized_corpus,
      (∀ t ∈ queryTokens nm ingredients, t ∉ doc) →
      docScore (buildIndexer nm recipes).tokenized_corpus
        (queryTokens nm ingredients) doc = 0) := by
  constructor
  · intro res hres
    rw [search_eq] at hres
    split at hres
    · cases hres
    · rw [List.mem_map] at hres
      obtain ⟨i, _, rfl⟩ := hres
      exact ⟨_, rfl, bm25GetScores_getD_nonneg _ _ i⟩
  · intro doc _ hno
    exact docScore_zero_of_no_overlap _ _ doc hno

/-- C6 amended: a corpus of `N` well-formed records and one malformed record
whose failure is a caught KeyError/ValueError (for instance a non-numeric
`id`, or a `None` where pydantic expects a string) loads without failing: that
record is skipped, exactly `N` recipes are loaded and indexed, and the count
of logged skips is 1.  (A malformed record whose `ingredients`, `tags` or `id`
field is `None` — a short CSV row — instead aborts the build with an uncaught
AttributeError/TypeError; see the counterexample.) -/
theorem loadRecipes_skip_malformed (nm : TextNormalizer) (pre post : List RawRow)
    (bad : RawRow)
    (hpre : ∀ row ∈ pre, (rowRecipe row).isSome = true)
    (hpost : ∀ row ∈ post, (rowRecipe row).isSome = true)
    (hbad : parseRow bad = RowOutcome.skip) :
    ∃ rs : List Recipe,
      loadRecipes (pre ++ bad :: post) = some (rs, 1) ∧
      rs.length = pre.length + post.length ∧
      (buildIndexer nm rs).get_recipe_count = pre.length + post.length := by
  have h0 : loadRecipes ([] : List RawRow) = some ([], 0) := rfl
  obtain ⟨rsp, hpostload, hpostlen⟩ := loadRecipes_ok_prefix post hpost h0
  rw [List.append_nil, List.append_nil] at hpostload
  have hbadload : loadRecipes (bad :: post) = some (rsp, 1) := by
    rw [loadRecipes, hbad, hpostload]
    rfl
  obtain ⟨rs0, hload, hlen⟩ := loadRecipes_ok_prefix pre hpre hbadload
  refine ⟨rs0 ++ rsp, hload, ?_, ?_⟩
  · rw [List.length_append, hlen, hpostlen]
  · show (rs0 ++ rsp).length = pre.length + post.length
    rw [List.length_append, hlen, hpostlen]

theorem loaded_score_none {rows : List RawRow} {recipes : List Recipe}
    {skipped : Nat} (hload : loadRecipes rows = some (recipes, skipped)) :
    ∀ r ∈ recipes, r.score = none := by
  intro r hr
  rw [loadRecipes_some_fst hload, List.mem_filterMap] at hr
  obtain ⟨row, _, hrow⟩ := hr
  exact rowRecipe_score hrow

/-- C9: once a corpus has loaded, search results are copies of stored recipes
with only `score` populated; the stored corpus keeps `score` absent, lookup by
a present id returns the stored recipe with `score` absent, and lookup by an
absent id returns `none` rather than an error. -/
theorem search_copies_and_lookup (nm : TextNormalizer) (rows : List RawRow)
    (ingredients : List String) (k : Nat) (rid : Int)
    (recipes : List Recipe) (skipped : Nat)
    (hload : loadRecipes rows = some (recipes, skipped)) :
    (∀ res ∈ (buildIndexer nm recipes).search nm ingredients k,
      ∃ i : Nat, i < recipes.length ∧
        res = { recipes.getD i default with
          score := some ((bm25GetScores
            (buildIndexer nm recipes).tokenized_corpus
            (queryTokens nm ingredients)).getD i 0) }) ∧
    (∀ r ∈ recipes, r.score = none) ∧
    ((∃ r ∈ recipes, r.id = rid) →
      ∃ r, (buildIndexer nm recipes).get_recipe_by_id rid = some r ∧
        r ∈ recipes ∧ r.id = rid ∧ r.score = none) ∧
    ((∀ r ∈ recipes, r.id ≠ rid) →
      (buildIndexer nm recipes).get_recipe_by_id rid = none) := by
  refine ⟨?_, loaded_score_none hload, ?_, ?_⟩
  · intro res hres
    rw [search_eq] at hres
    split at hres
    · cases hres
    · rw [List.mem_map] at hres
      obtain ⟨i, hi, rfl⟩ := hres
      refine ⟨i, ?_, rfl⟩
      have h1 : i ∈ sortLe _ (List.range (bm25GetScores
          (buildIndexer nm recipes).tokenized_corpus
          (queryTokens nm ingredients)).length) := (List.take_sublist _ _).mem hi
      have h2 := (sortLe_perm _ _).mem_iff.mp h1
      rw [List.mem_range, bm25GetScores_length, buildIndexer_corpus_length] at h2
      exact h2
  · intro ⟨r, hr, hid⟩
    have hsome : (recipes.find? (fun x => x.id == rid)).isSome = true :=
      List.find?_isSome.mpr ⟨r, hr, by rw [hid]; exact beq_self_eq_true rid⟩
    rcases hfind : recipes.find? (fun x => x.id == rid) with _ | r2
    · rw [hfind] at hsome; cases hsome
    · refine ⟨r2, hfind, List.mem_of_find?_eq_some hfind, ?_,
        loaded_score_none hload r2 (List.mem_of_find?_eq_some hfind)⟩
      have := List.find?_some hfind
      exact eq_of_beq this
  · intro hall
    apply List.find?_eq_none.mpr
    intro r hr
    simp only [beq_iff_eq]
    exact hall r hr

theorem find?_id_self : ∀ (l : List Recipe), (l.map Recipe.id).Nodup →
    ∀ r ∈ l, l.find? (fun x => x.id == r.id) = some r
  | [], _, r, hr => by cases hr
  | a :: l, hnd, r, hr => by
    have hnd2 := List.pairwise_cons.mp ((List.pairwise_map).mp hnd)
    rcases List.mem_cons.mp hr with rfl | hr2
    · rw [List.find?, beq_self_eq_true]
    · rw [List.find?]
      have hne : (a.id == r.id) = false := by
        rw [beq_eq_false_iff_ne]
        exact hnd2.1 r hr2
      rw [hne]
      exact find?_id_self l ((List.pairwise_map).mpr hnd2.2) r hr2

/-- C10 amended: the build step does not enforce id uniqueness; it inherits it
from the source: when the successfully parsed rows have pairwise-distinct ids,
the loaded collection has pairwise-distinct ids and lookup by id returns
exactly the stored recipe, making lookup unambiguous. -/
theorem load_preserves_id_distinctness (nm : TextNormalizer) (rows : List RawRow)
    (recipes : List Recipe) (skipped : Nat)
    (hload : loadRecipes rows = some (recipes, skipped))
    (h : List.Pairwise (fun a b => ∀ x ∈ rowRecipe a, ∀ y ∈ rowRecipe b,
      x.id ≠ y.id) rows) :
    (recipes.map Recipe.id).Nodup ∧
    ∀ r ∈ recipes,
      (buildIndexer nm recipes).get_recipe_by_id r.id = some r := by
  have hfst := loadRecipes_some_fst hload
  subst hfst
  have hnd : (((rows.filterMap rowRecipe)).map Recipe.id).Nodup := by
    rw [List.Nodup, List.pairwise_map, List.pairwise_filterMap]
    exact h
  exact ⟨hnd, fun r hr => find?_id_self _ hnd r hr⟩

/-! ### Concrete corpus and rows used by witnesses and counterexamples -/

/-- The "Chicken Rice" recipe of the spec's worked example. -/
def rcpA : Recipe :=
  ⟨1, "Chicken Rice", ["chicken breast", "rice", "soy sauce"], "Cook everything.",
   "asian", ["dinner", "easy"], some 30, none⟩

/-- The "Tomato Pasta" recipe of the spec's worked example. -/
def rcpB : Recipe :=
  ⟨2, "Tomato Pasta", ["tomato", "pasta", "basil"], "Boil pasta.",
   "italian", ["dinner"], none, none⟩

/-- A well-formed CSV row parsing to the "Chicken Rice" recipe. -/
def rowA : RawRow :=
  ⟨some "1", some "Chicken Rice", some "chicken breast, rice, soy sauce",
   some "Cook everything.", some "asian", some "dinner, easy", some "30"⟩

/-- A well-formed CSV row parsing to the "Tomato Pasta" recipe. -/
def rowB : RawRow :=
  ⟨some "2", some "Tomato Pasta", some "tomato, pasta, basil",
   some "Boil pasta.", some "italian", some "dinner", some ""⟩

/-- A malformed CSV row: its `id` field is not numeric, so `int(row['id'])`
raises a `ValueError` and the loader skips the row. -/
def rowBad : RawRow :=
  ⟨some "two", some "Broken", some "x", some "", some "", some "", none⟩

/-- A well-formed CSV row that reuses id 1 with a different title. -/
def rowA2 : RawRow :=
  ⟨some "1", some "Chicken Curry", some "chicken, curry paste",
   some "Simmer.", some "thai", some "dinner", some "25"⟩

/-- The recipe `rowA2` parses to. -/
def rcpA2 : Recipe :=
  ⟨1, "Chicken Curry", ["chicken", "curry paste"], "Simmer.",
   "thai", ["dinner"], some 25, none⟩

/-- A CSV row with fewer fields than the header: `csv.DictReader` fills the
missing trailing fields with `None`, and `row['ingredients'].split(',')` then
raises an `AttributeError` that `except (KeyError, ValueError)` does not
catch, aborting the build. -/
def rowShort : RawRow :=
  ⟨some "3", some "Short Row", none, none, none, none, none⟩

/-- The tokenized corpus the indexer builds over `[rcpA, rcpB]`: note that the
joined ingredient list of each recipe is a single comma-free segment, hence one
multi-word token, while the title contributes proper single-word key terms. -/
def cEx : List (List String) :=
  [["chicken breast rice soy sauce", "chicken", "rice"],
   ["tomato pasta basil", "tomato", "pasta"]]

theorem buildIndexer_cEx : (buildIndexer nmEx [rcpA, rcpB]).tokenized_corpus = cEx := by
  decide

theorem bm25_rice_eval : bm25GetScores cEx ["rice"] = [1, 0] := by
  have hd : docFreq cEx "rice" = 1 := by decide
  have ht0 : termFreq "rice" ["chicken breast rice soy sauce", "chicken", "rice"] = 1 := by
    decide
  have ht1 : termFreq "rice" ["tomato pasta basil", "tomato", "pasta"] = 0 := by decide
  have hl : avgdl cEx = 3 := by norm_num [avgdl, cEx]
  simp only [bm25GetScores, cEx, List.map_cons, List.map_nil, docScore, List.sum_cons,
    List.sum_nil, idfQ]
  rw [show cEx = [["chicken breast rice soy sauce", "chicken", "rice"],
    ["tomato pasta basil", "tomato", "pasta"]] from rfl] at hd hl
  rw [hd, ht0, ht1, hl]
  norm_num

theorem search_rice_eval :
    (buildIndexer nmEx [rcpA, rcpB]).search nmEx ["rice"] 2 =
      [{rcpA with score := some 1}, {rcpB with score := some 0}] := by
  have hq : queryTokens nmEx ["rice"] = ["rice"] := by decide
  rw [RecipeIndexer.search]
  rw [hq, buildIndexer_cEx, bm25_rice_eval]
  have hr0 : rankLe [1, 0] 1 0 = false := by
    simp only [rankLe, List.getD]
    norm_num
  have hr1 : rankLe [1, 0] 0 1 = true := by
    simp only [rankLe, List.getD]
    norm_num
  have hsort : sortLe (rankLe [1, 0]) (List.range 2) = [0, 1] := by
    simp [sortLe, insertLe, List.range_succ, hr0, hr1]
  simp only [List.length_cons, List.length_nil, List.isEmpty_cons, hsort]
  simp [buildIndexer, List.getD]

/-! ### Witnesses and counterexamples on the concrete data -/

theorem search_sorted_by_score_witness :
    ∃ is : List Nat,
      (buildIndexer nmEx [rcpA, rcpB]).search nmEx ["rice"] 2 =
        is.map (fun i =>
          { [rcpA, rcpB].getD i default with
            score := some ((bm25GetScores (buildIndexer nmEx [rcpA, rcpB]).tokenized_corpus
              (queryTokens nmEx ["rice"])).getD i 0) }) ∧
      is.Nodup ∧
      (∀ i ∈ is, i < ([rcpA, rcpB] : List Recipe).length) ∧
      List.Pairwise (fun i j =>
        (bm25GetScores (buildIndexer nmEx [rcpA, rcpB]).tokenized_corpus
            (queryTokens nmEx ["rice"])).getD j 0 <
          (bm25GetScores (buildIndexer nmEx [rcpA, rcpB]).tokenized_corpus
            (queryTokens nmEx ["rice"])).getD i 0 ∨
        ((bm25GetScores (buildIndexer nmEx [rcpA, rcpB]).tokenized_corpus
            (queryTokens nmEx ["rice"])).getD i 0 =
          (bm25GetScores (buildIndexer nmEx [rcpA, rcpB]).tokenized_corpus
            (queryTokens nmEx ["rice"])).getD j 0 ∧ i ≤ j)) is :=
  search_sorted_by_score nmEx [rcpA, rcpB] ["rice"] 2

theorem search_topk_bound_witness :
    queryTokens nmEx ["rice"] ≠ [] ∧
    1 ≤ ((buildIndexer nmEx [rcpA, rcpB]).tokenized_corpus.filter
      (fun doc => (queryTokens nmEx ["rice"]).any (fun t => doc.contains t))).length ∧
    ((buildIndexer nmEx [rcpA, rcpB]).search nmEx ["rice"] 1).length =
      min 1 ([rcpA, rcpB] : List Recipe).length :=
  ⟨by decide, by decide,
   (search_topk_bound nmEx [rcpA, rcpB] ["rice"] 1).2 (by decide) (by decide)⟩

theorem search_scores_nonneg_witness :
    ({rcpA with score := some 1} : Recipe) ∈
      (buildIndexer nmEx [rcpA, rcpB]).search nmEx ["rice"] 2 ∧
    ∃ s : ℚ, ({rcpA with score := some 1} : Recipe).score = some s ∧ 0 ≤ s := by
  have hm : ({rcpA with score := some 1} : Recipe) ∈
      (buildIndexer nmEx [rcpA, rcpB]).search nmEx ["rice"] 2 := by
    rw [search_rice_eval]
    exact List.mem_cons_self _ _
  exact ⟨hm, (search_scores_nonneg nmEx [rcpA, rcpB] ["rice"] 2).1 _ hm⟩

/-- C6 counterexample: the build DOES fail fatally on some malformed records:
in a corpus of one well-formed record plus one short row (whose `None`-filled
`ingredients` field makes `None.split(',')` raise an uncaught
`AttributeError`), loading aborts instead of skipping the bad record. -/
theorem load_fatal_on_short_row :
    (rowRecipe rowA).isSome = true ∧
    parseRow rowShort = RowOutcome.fatal ∧
    loadRecipes [rowA, rowShort] = none := by decide

theorem loadRecipes_skip_malformed_witness :
    (∀ row ∈ [rowA], (rowRecipe row).isSome = true) ∧
    (∀ row ∈ [rowB], (rowRecipe row).isSome = true) ∧
    parseRow rowBad = RowOutcome.skip ∧
    ∃ rs : List Recipe,
      loadRecipes ([rowA] ++ rowBad :: [rowB]) = some (rs, 1) ∧
      rs.length = 1 + 1 ∧
      (buildIndexer nmEx rs).get_recipe_count = 1 + 1 :=
  ⟨by decide, by decide, by decide,
   loadRecipes_skip_malformed nmEx [rowA] [rowB] rowBad
     (by decide) (by decide) (by decide)⟩

/-- C7 counterexample: a readable corpus source containing zero valid records
need not construct: when its sole (malformed) record is a short row, the build
aborts with an uncaught `AttributeError` instead of succeeding with an empty
index. -/
theorem build_fails_on_short_row_corpus :
    rowRecipe rowShort = none ∧
    loadRecipes [rowShort] = none := by decide

theorem search_empty_corpus_witness :
    loadRecipes [rowBad] = some ([], 1) ∧
    (buildIndexer nmEx ([] : List Recipe)).search nmEx ["rice"] 5 = [] :=
  ⟨by decide, search_empty_corpus nmEx [rowBad] ["rice"] 5 [] 1 (by decide) rfl⟩

theorem search_copies_and_lookup_witness :
    loadRecipes [rowA, rowB] = some ([rcpA, rcpB], 0) ∧
    (∃ r ∈ ([rcpA, rcpB] : List Recipe), r.id = 1) ∧
    (∃ r, (buildIndexer nmEx [rcpA, rcpB]).get_recipe_by_id 1 = some r ∧
      r ∈ ([rcpA, rcpB] : List Recipe) ∧ r.id = 1 ∧ r.score = none) ∧
    (∀ r ∈ ([rcpA, rcpB] : List Recipe), r.id ≠ 999) ∧
    (buildIndexer nmEx [rcpA, rcpB]).get_recipe_by_id 999 = none :=
  ⟨by decide, by decide,
   (search_copies_and_lookup nmEx [rowA, rowB] ["rice"] 2 1 [rcpA, rcpB] 0
      (by decide)).2.2.1 (by decide),
   by decide,
   (search_copies_and_lookup nmEx [rowA, rowB] ["rice"] 2 999 [rcpA, rcpB] 0
      (by decide)).2.2.2 (by decide)⟩

/-- C10 counterexample: a corpus of two well-formed rows that both carry id 1
is accepted in full by the build step (nothing is skipped and nothing is
fatal), yet the loaded id sequence `[1, 1]` is not pairwise distinct. -/
theorem load_duplicate_ids :
    loadRecipes [rowA, rowA2] = some ([rcpA, rcpA2], 0) ∧
    ([rcpA, rcpA2] : List Recipe).map Recipe.id = [1, 1] ∧
    ¬ (([rcpA, rcpA2] : List Recipe).map Recipe.id).Nodup := by decide

theorem load_preserves_id_distinctness_witness :
    loadRecipes [rowA, rowB] = some ([rcpA, rcpB], 0) ∧
    List.Pairwise (fun a b => ∀ x ∈ rowRecipe a, ∀ y ∈ rowRecipe b,
      x.id ≠ y.id) [rowA, rowB] ∧
    (([rcpA, rcpB] : List Recipe).map Recipe.id).Nodup :=
  ⟨by decide, by decide,
   (load_preserves_id_distinctness nmEx [rowA, rowB] [rcpA, rcpB] 0
      (by decide) (by decide)).1⟩

/-! ### Behaviour of the modelled lemmatizer on clean words -/

theorem wordnetLemma_clean : ∀ w, CleanStr w → CleanStr (wordnetLemma w) := by
  intro w hw
  rw [wordnetLemma]
  rcases h : List.lookup w [("tomatoes", "tomato"), ("cups", "cup"),
      ("noodles", "noodle")] with _ | v
  · exact hw
  · have hm := lookup_mem _ _ _ h
    simp only [List.mem_cons, List.not_mem_nil, or_false, Prod.mk.injEq] at hm
    rcases hm with ⟨_, rfl⟩ | ⟨_, rfl⟩ | ⟨_, rfl⟩
    · exact show CleanStr "tomato" by decide
    · exact show CleanStr "cup" by decide
    · exact show CleanStr "noodle" by decide

theorem wordnetLemma_idem : ∀ w, wordnetLemma (wordnetLemma w) = wordnetLemma w := by
  intro w
  rcases h : List.lookup w [("tomatoes", "tomato"), ("cups", "cup"),
      ("noodles", "noodle")] with _ | v
  · have hw : wordnetLemma w = w := by rw [wordnetLemma, h]
    rw [hw, hw]
  · have hw : wordnetLemma w = v := by rw [wordnetLemma, h]
    rw [hw]
    have hm := lookup_mem _ _ _ h
    simp only [List.mem_cons, List.not_mem_nil, or_false, Prod.mk.injEq] at hm
    rcases hm with ⟨_, rfl⟩ | ⟨_, rfl⟩ | ⟨_, rfl⟩ <;> decide

/-- C1 counterexample: `tokenize_ingredients` appends each segment's whole
normalized string without splitting it on whitespace, so the one-segment input
"chicken breast" yields the single element "chicken breast", which contains a
space — refuting "every element of the returned sequence contains no
whitespace". -/
theorem tokenize_keeps_multiword_segments :
    TextNormalizer.tokenize_ingredients nmEx "chicken breast" = ["chicken breast"] ∧
    ∃ t ∈ TextNormalizer.tokenize_ingredients nmEx "chicken breast",
      ∃ c ∈ t.data, c.isWhitespace = true := by decide

/-- C1 amended: each comma-separated segment, after quantity/fraction/number
stripping and normalization with stopword removal, contributes its entire
normalized string as one element — the per-segment strings are not split on
whitespace; segments that normalize to empty are discarded; hence every element
is a non-empty single-space join of clean canonical words and may contain
internal spaces exactly when its segment normalizes to several words. -/
theorem tokenize_ingredients_structure (nm : TextNormalizer) (s : String)
    (hsynv : SynTableClean nm.synonyms)
    (hlem : ∀ w, CleanStr w → CleanStr (nm.lemmatize w)) :
    (nm.tokenize_ingredients s).length ≤ (pySplitComma s).length ∧
    ∀ t ∈ nm.tokenize_ingredients s,
      t ≠ "" ∧
      (∃ seg ∈ pySplitComma s, t = nm.normalize (stripQuantities (pyStrip seg)) true) ∧
      ∃ ws : List String, ws ≠ [] ∧ (∀ w ∈ ws, CleanStr w) ∧ t = pyJoin ws := by
  constructor
  · calc (nm.tokenize_ingredients s).length
        ≤ (((pySplitComma s).map pyStrip).map
            (fun item => nm.normalize (stripQuantities item) true)).length :=
          List.length_filter_le _ _
      _ = (pySplitComma s).length := by rw [List.length_map, List.length_map]
  · intro t ht
    rw [TextNormalizer.tokenize_ingredients] at ht
    have htne : t ≠ "" := by
      have := List.of_mem_filter ht
      simpa using this
    have hmem := List.mem_of_mem_filter ht
    rw [List.map_map, List.mem_map] at hmem
    obtain ⟨seg, hseg, hts⟩ := hmem
    simp only [Function.comp_apply] at hts
    refine ⟨htne, ⟨seg, hseg, hts.symm⟩, ?_⟩
    obtain ⟨pre, hpre, -, heq⟩ :=
      normalize_words nm (stripQuantities (pyStrip seg)) true hsynv
    rw [← hts] at htne ⊢
    rw [heq] at htne ⊢
    refine ⟨_, ?_, ?_, rfl⟩
    · intro hnil
      rw [hnil] at htne
      exact htne rfl
    · intro w hw
      have hw2 : w ∈ pre.map nm.lemmatize := List.mem_of_mem_filter hw
      rw [List.mem_map] at hw2
      obtain ⟨w0, hw0, rfl⟩ := hw2
      exact hlem w0 (hpre w0 hw0)

theorem tokenize_ingredients_structure_witness :
    SynTableClean nmEx.synonyms ∧
    (nmEx.tokenize_ingredients "2 cups tomatoes, chicken breast").length ≤
      (pySplitComma "2 cups tomatoes, chicken breast").length ∧
    ∀ t ∈ nmEx.tokenize_ingredients "2 cups tomatoes, chicken breast",
      t ≠ "" ∧
      (∃ seg ∈ pySplitComma "2 cups tomatoes, chicken breast",
        t = nmEx.normalize (stripQuantities (pyStrip seg)) true) ∧
      ∃ ws : List String, ws ≠ [] ∧ (∀ w ∈ ws, CleanStr w) ∧ t = pyJoin ws :=
  ⟨by decide,
   (tokenize_ingredients_structure nmEx "2 cups tomatoes, chicken breast"
      (by decide) wordnetLemma_clean).1,
   (tokenize_ingredients_structure nmEx "2 cups tomatoes, chicken breast"
      (by decide) wordnetLemma_clean).2⟩

/-- C2 counterexample: the query path strips no quantities or units, so on the
spec's own example phrase "2 cups tomatoes" it produces the tokens
{2, cup, tomato} while the indexing path produces {tomato} — the two token
sets are not equal. -/
theorem query_index_paths_differ :
    queryTokens nmEx ["2 cups tomatoes"] = ["2", "cup", "tomato"] ∧
    TextNormalizer.tokenize_ingredients nmEx "2 cups tomatoes" = ["tomato"] ∧
    ("2" ∈ queryTokens nmEx ["2 cups tomatoes"]) ∧
    ("2" ∉ TextNormalizer.tokenize_ingredients nmEx "2 cups tomatoes") := by decide

/-- C2 amended: the token sets of the query path and the indexing path are not
equal in general (the query path keeps quantity and unit tokens, and the
indexing path keeps multi-word segments unsplit), but on the spec's example
phrases the two paths agree on the canonical token `tomato`: "Tomatoes" and
"2 cups tomatoes" both yield a token set containing `tomato` on both paths. -/
theorem query_index_tomato_agreement :
    ("tomato" ∈ queryTokens nmEx ["Tomatoes"]) ∧
    ("tomato" ∈ TextNormalizer.tokenize_ingredients nmEx "Tomatoes") ∧
    ("tomato" ∈ queryTokens nmEx ["2 cups tomatoes"]) ∧
    ("tomato" ∈ TextNormalizer.tokenize_ingredients nmEx "2 cups tomatoes") := by
  decide

/-! ### Fixed points of the normalization pipeline on already-canonical strings -/

theorem pyLower_fixed (s : String) (h : ∀ c ∈ s.data, c.toLower = c) :
    pyLower s = s := by
  rw [pyLower]
  have : s.data.map Char.toLower = s.data :=
    (List.map_congr_left h).trans (List.map_id _)
  rw [this]

theorem dropWhile_ws_eq_self {l : List Char}
    (h : ∀ c ∈ l.take 1, c.isWhitespace = false) :
    l.dropWhile Char.isWhitespace = l := by
  cases l with
  | nil => rfl
  | cons a l =>
    rw [List.dropWhile_cons, if_neg]
    simp [h a (by simp)]

theorem pyStrip_fixed (s : String)
    (h1 : ∀ c ∈ s.data.take 1, c.isWhitespace = false)
    (h2 : ∀ c ∈ s.data.reverse.take 1, c.isWhitespace = false) :
    pyStrip s = s := by
  rw [pyStrip, dropWhile_ws_eq_self h1, dropWhile_ws_eq_self h2, List.reverse_reverse]

theorem pyStripPunct_fixed (s : String) (h : ∀ c ∈ s.data, isKeptChar c = true) :
    pyStripPunct s = s := by
  rw [pyStripPunct]
  have : s.data.map (fun c => if isKeptChar c then c else ' ') = s.data :=
    (List.map_congr_left (fun c hc => if_pos (h c hc))).trans (List.map_id _)
  rw [this]

theorem joinChars_ne_nil : ∀ (w : List Char) (ws : List (List Char)), w ≠ [] →
    joinChars (w :: ws) ≠ []
  | w, [], hw => by rw [joinChars]; exact hw
  | w, w2 :: ws, hw => by
    rw [joinChars]
    intro hc
    rcases List.append_eq_nil.mp hc with ⟨rfl, _⟩
    exact hw rfl

theorem pyJoin_head_not_ws (ws : List String) (h : ∀ w ∈ ws, CleanStr w) :
    ∀ c ∈ (pyJoin ws).data.take 1, c.isWhitespace = false := by
  cases ws with
  | nil => intro c hc; cases hc
  | cons w rest =>
    have hw := h w (List.mem_cons_self _ _)
    rcases hwd : w.data with _ | ⟨c0, cs⟩
    · exact absurd (String.ext (hwd.trans rfl)) hw.1
    · have hc0 : isCleanChar c0 = true := hw.2 c0 (by rw [hwd]; exact List.mem_cons_self _ _)
      intro c hc
      have hdata : (pyJoin (w :: rest)).data.take 1 = [c0] := by
        rw [pyJoin]
        show (joinChars (w.data :: rest.map String.data)).take 1 = [c0]
        cases rest with
        | nil => rw [List.map_nil, joinChars, hwd]; rfl
        | cons w2 rest2 =>
          rw [List.map_cons, joinChars, hwd]
          rfl
      rw [hdata, List.mem_singleton] at hc
      rw [hc]
      exact isCleanChar_not_ws hc0

theorem pyJoin_last_not_ws : ∀ ws : List String, (∀ w ∈ ws, CleanStr w) →
    ∀ c ∈ (pyJoin ws).data.reverse.take 1, c.isWhitespace = false
  | [], _ => by intro c hc; cases hc
  | [w], h => by
    intro c hc
    have hw := h w (List.mem_singleton_self w)
    have hdata : (pyJoin [w]).data = w.data := rfl
    rw [hdata] at hc
    have hmem : c ∈ w.data.reverse := (List.take_sublist _ _).mem hc
    rw [List.mem_reverse] at hmem
    exact isCleanChar_not_ws (hw.2 c hmem)
  | w :: w2 :: ws, h => by
    intro c hc
    have hrest : ∀ x ∈ w2 :: ws, CleanStr x := fun x hx => h x (List.mem_cons_of_mem _ hx)
    have hdata : (pyJoin (w :: w2 :: ws)).data =
        w.data ++ ' ' :: (pyJoin (w2 :: ws)).data := rfl
    rw [hdata, List.reverse_append, List.reverse_cons] at hc
    have hJne : (pyJoin (w2 :: ws)).data ≠ [] := by
      show joinChars (w2.data :: ws.map String.data) ≠ []
      apply joinChars_ne_nil
      intro hc2
      exact (h w2 (List.mem_cons_of_mem _ (List.mem_cons_self _ _))).1
        (String.ext (hc2.trans rfl))
    rcases hJr : (pyJoin (w2 :: ws)).data.reverse with _ | ⟨d, ds⟩
    · exact absurd (List.reverse_eq_nil_iff.mp hJr) hJne
    · rw [hJr] at hc
      rw [List.cons_append, List.cons_append, List.take_succ_cons, List.take_zero,
        List.mem_singleton] at hc
      subst hc
      have : c ∈ (pyJoin (w2 :: ws)).data.reverse.take 1 := by rw [hJr]; simp
      exact pyJoin_last_not_ws (w2 :: ws) hrest c this

theorem normalize_unfold (nm : TextNormalizer) (text : String) (r : Bool) :
    nm.normalize text r =
      pyJoin (if r then
          ((pyWords (applyMap plural_map (applyMap nm.synonyms
            (collapseWS (pyStripPunct (pyStrip (pyLower text))))))).map
              nm.lemmatize).filter (fun w => !nm.stopwords.contains w)
        else (pyWords (applyMap plural_map (applyMap nm.synonyms
            (collapseWS (pyStripPunct (pyStrip (pyLower text))))))).map
              nm.lemmatize) := rfl

/-- C8 amended: with the synonym table and stopword set fixed, `normalize` is
idempotent for either stopword-removal setting provided (i) the lemmatizer
preserves clean non-empty words and is idempotent on them (true of reduction to
dictionary base forms), (ii) synonym replacement phrases consist of clean word
characters and whitespace, and (iii) the normalized output does not itself hit
a synonym-table or plural-map key as a whole string; a chained synonym table
such as {a→b, b→c} violates (iii) for the intermediate form and breaks
idempotence. -/
theorem normalize_idempotent (nm : TextNormalizer) (x : String) (r : Bool)
    (hsynv : SynTableClean nm.synonyms)
    (hlem : ∀ w, CleanStr w → CleanStr (nm.lemmatize w))
    (hlemidem : ∀ w, CleanStr w → nm.lemmatize (nm.lemmatize w) = nm.lemmatize w)
    (hsyn : nm.synonyms.lookup (nm.normalize x r) = none)
    (hplural : plural_map.lookup (nm.normalize x r) = none) :
    nm.normalize (nm.normalize x r) r = nm.normalize x r := by
  obtain ⟨pre, hpre, -, heq⟩ := normalize_words nm x r hsynv
  set ws : List String := (if r then
      (pre.map nm.lemmatize).filter (fun w => !nm.stopwords.contains w)
    else pre.map nm.lemmatize) with hws
  have hws_of_map : ∀ w ∈ ws, w ∈ pre.map nm.lemmatize := by
    intro w hw
    rw [hws] at hw
    rcases r with _ | _
    · rw [if_neg (by simp)] at hw
      exact hw
    · rw [if_pos rfl] at hw
      exact List.mem_of_mem_filter hw
  have hwsclean : ∀ w ∈ ws, CleanStr w := by
    intro w hw
    obtain ⟨w0, hw0, rfl⟩ := List.mem_map.mp (hws_of_map w hw)
    exact hlem w0 (hpre w0 hw0)
  have hwsfix : ∀ w ∈ ws, nm.lemmatize w = w := by
    intro w hw
    obtain ⟨w0, hw0, rfl⟩ := List.mem_map.mp (hws_of_map w hw)
    exact hlemidem w0 (hpre w0 hw0)
  have hwsnows : ∀ w ∈ ws, w ≠ "" ∧ ∀ c ∈ w.data, c.isWhitespace = false := by
    intro w hw
    exact ⟨(hwsclean w hw).1, fun c hc => isCleanChar_not_ws ((hwsclean w hw).2 c hc)⟩
  have hy : nm.normalize x r = pyJoin ws := heq
  have hchar : ∀ c ∈ (pyJoin ws).data, c = ' ' ∨ isCleanChar c = true := by
    intro c hc
    rcases pyJoin_mem ws c hc with h | ⟨w, hw, hcw⟩
    · exact Or.inl h
    · exact Or.inr ((hwsclean w hw).2 c hcw)
  have h1 : pyLower (pyJoin ws) = pyJoin ws := by
    apply pyLower_fixed
    intro c hc
    rcases hchar c hc with rfl | h
    · decide
    · exact isCleanChar_toLower h
  have h2 : pyStrip (pyJoin ws) = pyJoin ws :=
    pyStrip_fixed _ (pyJoin_head_not_ws ws hwsclean) (pyJoin_last_not_ws ws hwsclean)
  have h3 : pyStripPunct (pyJoin ws) = pyJoin ws := by
    apply pyStripPunct_fixed
    intro c hc
    rcases hchar c hc with rfl | h
    · decide
    · exact isCleanChar_kept h
  have h4 : pyWords (pyJoin ws) = ws := pyWords_pyJoin ws hwsnows
  have h5 : collapseWS (pyJoin ws) = pyJoin ws := by
    rw [collapseWS, h4]
  rw [hy, normalize_unfold, h1, h2, h3, h5]
  rw [show applyMap nm.synonyms (pyJoin ws) = pyJoin ws from by
    rw [applyMap, ← hy, hsyn]]
  rw [show applyMap plural_map (pyJoin ws) = pyJoin ws from by
    rw [applyMap, ← hy, hplural]]
  rw [h4]
  have hmap : ws.map nm.lemmatize = ws :=
    (List.map_congr_left hwsfix).trans (List.map_id ws)
  rcases r with _ | _
  · rw [if_neg (by simp), hmap]
  · rw [if_pos rfl, hmap]
    have hfil : ws.filter (fun w => !nm.stopwords.contains w) = ws := by
      apply List.filter_eq_self.mpr
      intro w hw
      rw [hws, if_pos rfl] at hw
      have h6 := List.of_mem_filter hw
      exact h6
    rw [hfil]

/-- A normalizer whose synonym table chains: a→b and b→c. -/
def nmChain : TextNormalizer := ⟨[("a", "b"), ("b", "c")], defaultStopwords, wordnetLemma⟩

/-- C8 counterexample: with the synonym table {a→b, b→c} fixed, `normalize`
maps "a" to "b" and "b" to "c", so `normalize(normalize("a")) = "c" ≠ "b"`:
normalize is not idempotent for every synonym table and input text. -/
theorem normalize_not_idempotent :
    TextNormalizer.normalize nmChain "a" false = "b" ∧
    TextNormalizer.normalize nmChain "b" false = "c" ∧
    ¬ (∀ (nm : TextNormalizer) (x : String) (r : Bool),
        nm.normalize (nm.normalize x r) r = nm.normalize x r) :=
  ⟨by decide, by decide, fun h => absurd (h nmChain "a" false) (by decide)⟩

theorem normalize_idempotent_witness :
    SynTableClean nmEx.synonyms ∧
    nmEx.synonyms.lookup (nmEx.normalize "Fresh Tomatoes!" true) = none ∧
    plural_map.lookup (nmEx.normalize "Fresh Tomatoes!" true) = none ∧
    nmEx.normalize "Fresh Tomatoes!" true = "tomato" ∧
    nmEx.normalize (nmEx.normalize "Fresh Tomatoes!" true) true =
      nmEx.normalize "Fresh Tomatoes!" true :=
  ⟨by decide, by decide, by decide, by decide,
   normalize_idempotent nmEx "Fresh Tomatoes!" true (by decide) wordnetLemma_clean
     (fun w _ => wordnetLemma_idem w) (by decide) (by decide)⟩
